import Mathlib

/-!
Verification of the content-moderation core of `practice/content_moderation_system.cpp`:
the AVL banned-word dictionary, the KMP phrase matcher, the trust graph,
the severity scoring policy and the review queue.

A C++ `std::string` is modelled as its character sequence `List Char`
(`Str` below); `std::string::operator<` is the lexicographic order on that
sequence, which is Mathlib's linear order on `List Char`.  Machine `int`
values are modelled by `Int`, or by `Nat` where the source only ever holds
non-negative counts; `std::vector` contents by `List`; `std::map` by an
association list with unique keys.
-/

/-- Character sequence of a `std::string`. -/
abbrev Str := List Char

-- ===================== AVL dictionary (lines 16-138) =====================

/-- `AVLNode` from the source: a banned word, two children and a stored height.
A null pointer is `nil`. -/
inductive AVLNode where
  | nil : AVLNode
  | node (key : Str) (left : AVLNode) (right : AVLNode) (height : Nat) : AVLNode
deriving DecidableEq, Repr

/-- `getHeight`: stored height of a node, `0` for null. -/
def getHeight : AVLNode → Nat
  | AVLNode.nil => 0
  | AVLNode.node _ _ _ h => h

/-- `getBalance`: height(left) − height(right) as a signed integer, `0` for null. -/
def getBalance : AVLNode → Int
  | AVLNode.nil => 0
  | AVLNode.node _ l r _ => (getHeight l : Int) - (getHeight r : Int)

/-- Key stored at the root; the `[]` default stands for a null dereference,
which the source never performs on the paths we verify. -/
def nodeKey : AVLNode → Str
  | AVLNode.nil => []
  | AVLNode.node k _ _ _ => k

/-- `rightRotate` (lines 47-60).  The fallthrough case corresponds to a null
`y->left`, undefined behaviour in the source, never reached by `insertAVL`. -/
def rightRotate : AVLNode → AVLNode
  | AVLNode.node yk (AVLNode.node xk xl xr _) yr _ =>
    let y := AVLNode.node yk xr yr (max (getHeight xr) (getHeight yr) + 1)
    AVLNode.node xk xl y (max (getHeight xl) (getHeight y) + 1)
  | t => t

/-- `leftRotate` (lines 67-80), mirror image of `rightRotate`. -/
def leftRotate : AVLNode → AVLNode
  | AVLNode.node xk xl (AVLNode.node yk yl yr _) _ =>
    let x := AVLNode.node xk xl yl (max (getHeight xl) (getHeight yl) + 1)
    AVLNode.node yk x yr (max (getHeight x) (getHeight yr) + 1)
  | t => t

/-- Steps 2-4 of `insertAVL` (lines 98-126): update the stored height, compute
the balance factor and apply the four rotation cases.  `l` and `r` are the
children after the recursive insertion, as in the source, where the node is
re-read after `node->left` / `node->right` has been reassigned. -/
def rebalanceAfterInsert (t : AVLNode) (key : Str) : AVLNode :=
  match t with
  | AVLNode.nil => AVLNode.nil
  | AVLNode.node k l r _ =>
    let h := 1 + max (getHeight l) (getHeight r)
    let balance : Int := (getHeight l : Int) - (getHeight r : Int)
    if 1 < balance ∧ key < nodeKey l then
      rightRotate (AVLNode.node k l r h)
    else if balance < -1 ∧ nodeKey r < key then
      leftRotate (AVLNode.node k l r h)
    else if 1 < balance ∧ nodeKey l < key then
      rightRotate (AVLNode.node k (leftRotate l) r h)
    else if balance < -1 ∧ key < nodeKey r then
      leftRotate (AVLNode.node k l (rightRotate r) h)
    else
      AVLNode.node k l r h

/-- `insertAVL` (lines 87-127): BST insertion, duplicate keys ignored,
followed by the height update and rebalancing step. -/
def insertAVL : AVLNode → Str → AVLNode
  | AVLNode.nil, key => AVLNode.node key AVLNode.nil AVLNode.nil 1
  | AVLNode.node k l r h, key =>
    if key < k then
      rebalanceAfterInsert (AVLNode.node k (insertAVL l key) r h) key
    else if k < key then
      rebalanceAfterInsert (AVLNode.node k l (insertAVL r key) h) key
    else
      AVLNode.node k l r h

/-- `searchAVL` (lines 133-138). -/
def searchAVL : AVLNode → Str → Bool
  | AVLNode.nil, _ => false
  | AVLNode.node k l r _, key =>
    if key = k then true
    else if key < k then searchAVL l key
    else searchAVL r key

/-- The banned-word database of `main` (lines 278-284): fold `insertAVL`
over the word list starting from the null tree. -/
def buildDict (ws : List Str) : AVLNode :=
  ws.foldl insertAVL AVLNode.nil

/-- In-order traversal of the dictionary. -/
def inorder : AVLNode → List Str
  | AVLNode.nil => []
  | AVLNode.node k l r _ => inorder l ++ k :: inorder r

/-- Every stored height field equals 1 + max of the children's heights. -/
def heightsOk : AVLNode → Bool
  | AVLNode.nil => true
  | AVLNode.node _ l r h =>
    (h = 1 + max (getHeight l) (getHeight r) : Bool) && heightsOk l && heightsOk r

/-- The AVL balance invariant on stored heights: every node's balance factor
lies in `[-1, 1]`. -/
def balancedOk : AVLNode → Bool
  | AVLNode.nil => true
  | AVLNode.node _ l r _ =>
    (((getHeight l : Int) - (getHeight r : Int)).natAbs ≤ 1 : Bool)
      && balancedOk l && balancedOk r

example : searchAVL (buildDict [['c'], ['a'], ['d']]) ['a'] = true := by decide
example : searchAVL (buildDict [['c'], ['a'], ['d']]) ['b'] = false := by decide
example : heightsOk (buildDict [['a'], ['b'], ['c'], ['d'], ['e']]) = true := by decide
example : balancedOk (buildDict [['a'], ['b'], ['c'], ['d'], ['e']]) = true := by decide
example : inorder (buildDict [['c'], ['a'], ['b']]) = [['a'], ['b'], ['c']] := by decide

-- ============== in-order traversal, membership and search ==============

theorem inorder_leftRotate (t : AVLNode) : inorder (leftRotate t) = inorder t := by
  match t with
  | AVLNode.nil => rfl
  | AVLNode.node xk xl AVLNode.nil h => rfl
  | AVLNode.node xk xl (AVLNode.node yk yl yr hy) h =>
    simp [leftRotate, inorder, List.append_assoc]

theorem inorder_rightRotate (t : AVLNode) : inorder (rightRotate t) = inorder t := by
  match t with
  | AVLNode.nil => rfl
  | AVLNode.node yk AVLNode.nil yr h => rfl
  | AVLNode.node yk (AVLNode.node xk xl xr hx) yr h =>
    simp [rightRotate, inorder, List.append_assoc]

theorem inorder_rebalanceAfterInsert (t : AVLNode) (key : Str) :
    inorder (rebalanceAfterInsert t key) = inorder t := by
  cases t with
  | nil => rfl
  | node k l r h =>
    simp only [rebalanceAfterInsert]
    split_ifs <;>
      simp [inorder_leftRotate, inorder_rightRotate, inorder]

theorem mem_inorder_insertAVL (t : AVLNode) (key x : Str) :
    x ∈ inorder (insertAVL t key) ↔ x = key ∨ x ∈ inorder t := by
  induction t with
  | nil => simp [insertAVL, inorder]
  | node k l r h ihl ihr =>
    unfold insertAVL
    split_ifs with h1 h2
    · rw [inorder_rebalanceAfterInsert]
      simp only [inorder, List.mem_append, List.mem_cons, ihl]
      tauto
    · rw [inorder_rebalanceAfterInsert]
      simp only [inorder, List.mem_append, List.mem_cons, ihr]
      tauto
    · have hk : key = k := le_antisymm (not_lt.mp h2) (not_lt.mp h1)
      subst hk
      simp only [inorder, List.mem_append, List.mem_cons]
      tauto

theorem pairwise_inorder_insertAVL (t : AVLNode) (key : Str)
    (hp : List.Pairwise (· < ·) (inorder t)) :
    List.Pairwise (· < ·) (inorder (insertAVL t key)) := by
  induction t with
  | nil => simp [insertAVL, inorder]
  | node k l r h ihl ihr =>
    rw [inorder] at hp
    rw [List.pairwise_append] at hp
    obtain ⟨hl, hkr, hcross⟩ := hp
    rw [List.pairwise_cons] at hkr
    obtain ⟨hkx, hr⟩ := hkr
    unfold insertAVL
    split_ifs with h1 h2
    · rw [inorder_rebalanceAfterInsert]
      rw [inorder, List.pairwise_append]
      refine ⟨ihl hl, ?_, ?_⟩
      · rw [List.pairwise_cons]
        exact ⟨hkx, hr⟩
      · intro a ha b hb
        rcases (mem_inorder_insertAVL l key a).mp ha with rfl | ha'
        · rcases List.mem_cons.mp hb with rfl | hb'
          · exact h1
          · exact lt_trans h1 (hkx b hb')
        · exact hcross a ha' b hb
    · rw [inorder_rebalanceAfterInsert]
      rw [inorder, List.pairwise_append]
      refine ⟨hl, ?_, ?_⟩
      · rw [List.pairwise_cons]
        refine ⟨?_, ihr hr⟩
        intro b hb
        rcases (mem_inorder_insertAVL r key b).mp hb with rfl | hb'
        · exact h2
        · exact hkx b hb'
      · intro a ha b hb
        rcases List.mem_cons.mp hb with rfl | hb'
        · exact hcross a ha _ (List.mem_cons_self _ _)
        · rcases (mem_inorder_insertAVL r key b).mp hb' with rfl | hb''
          · exact lt_trans (hcross a ha _ (List.mem_cons_self _ _)) h2
          · exact hcross a ha b (List.mem_cons_of_mem _ hb'')
    · have hk : key = k := le_antisymm (not_lt.mp h2) (not_lt.mp h1)
      subst hk
      rw [inorder, List.pairwise_append]
      exact ⟨hl, List.pairwise_cons.mpr ⟨hkx, hr⟩, hcross⟩

theorem searchAVL_iff_mem (t : AVLNode) (key : Str)
    (hp : List.Pairwise (· < ·) (inorder t)) :
    searchAVL t key = true ↔ key ∈ inorder t := by
  induction t with
  | nil => simp [searchAVL, inorder]
  | node k l r h ihl ihr =>
    rw [inorder] at hp ⊢
    rw [List.pairwise_append] at hp
    obtain ⟨hl, hkr, hcross⟩ := hp
    rw [List.pairwise_cons] at hkr
    obtain ⟨hkx, hr⟩ := hkr
    unfold searchAVL
    split_ifs with h0 h1
    · subst h0
      simp
    · rw [ihl hl]
      simp only [List.mem_append, List.mem_cons]
      constructor
      · exact fun hx => Or.inl hx
      · rintro (hx | rfl | hx)
        · exact hx
        · exact absurd h1 (lt_irrefl _)
        · exact absurd (lt_trans h1 (hkx key hx)) (lt_irrefl key)
    · have h2 : k < key := by
        rcases lt_trichotomy key k with hc | hc | hc
        · exact absurd hc h1
        · exact absurd hc h0
        · exact hc
      rw [ihr hr]
      simp only [List.mem_append, List.mem_cons]
      constructor
      · exact fun hx => Or.inr (Or.inr hx)
      · rintro (hx | rfl | hx)
        · exact absurd (lt_trans h2 (hcross key hx _ (List.mem_cons_self _ _)))
            (lt_irrefl _)
        · exact absurd h2 (lt_irrefl key)
        · exact hx

theorem pairwise_inorder_foldl (ws : List Str) (t : AVLNode)
    (hp : List.Pairwise (· < ·) (inorder t)) :
    List.Pairwise (· < ·) (inorder (ws.foldl insertAVL t)) := by
  induction ws generalizing t with
  | nil => exact hp
  | cons w ws ih => exact ih _ (pairwise_inorder_insertAVL t w hp)

theorem pairwise_inorder_buildDict (ws : List Str) :
    List.Pairwise (· < ·) (inorder (buildDict ws)) := by
  exact pairwise_inorder_foldl ws AVLNode.nil (by simp [inorder])

theorem mem_inorder_foldl (ws : List Str) (t : AVLNode) (x : Str) :
    x ∈ inorder (ws.foldl insertAVL t) ↔ x ∈ ws ∨ x ∈ inorder t := by
  induction ws generalizing t with
  | nil => simp
  | cons w ws ih =>
    simp only [List.foldl_cons, ih, mem_inorder_insertAVL, List.mem_cons]
    tauto

theorem mem_inorder_buildDict (ws : List Str) (x : Str) :
    x ∈ inorder (buildDict ws) ↔ x ∈ ws := by
  rw [buildDict, mem_inorder_foldl]
  simp [inorder]

theorem searchAVL_buildDict_iff (ws : List Str) (w : Str) :
    searchAVL (buildDict ws) w = true ↔ w ∈ ws := by
  rw [searchAVL_iff_mem _ _ (pairwise_inorder_buildDict ws), mem_inorder_buildDict]

-- ===================== AVL balance invariant =====================

@[simp] theorem getHeight_nil : getHeight AVLNode.nil = 0 := rfl

@[simp] theorem getHeight_node {k : Str} {l r : AVLNode} {h : Nat} :
    getHeight (AVLNode.node k l r h) = h := rfl

@[simp] theorem nodeKey_node {k : Str} {l r : AVLNode} {h : Nat} :
    nodeKey (AVLNode.node k l r h) = k := rfl

@[simp] theorem getBalance_node {k : Str} {l r : AVLNode} {h : Nat} :
    getBalance (AVLNode.node k l r h) = (getHeight l : Int) - (getHeight r : Int) := rfl

theorem heightsOk_node {k : Str} {l r : AVLNode} {h : Nat} :
    heightsOk (AVLNode.node k l r h) = true ↔
      h = 1 + max (getHeight l) (getHeight r) ∧
        heightsOk l = true ∧ heightsOk r = true := by
  simp [heightsOk, and_assoc]

theorem balancedOk_node {k : Str} {l r : AVLNode} {h : Nat} :
    balancedOk (AVLNode.node k l r h) = true ↔
      (getHeight l ≤ getHeight r + 1 ∧ getHeight r ≤ getHeight l + 1) ∧
        balancedOk l = true ∧ balancedOk r = true := by
  have harith : (((getHeight l : Int) - getHeight r).natAbs ≤ 1) ↔
      (getHeight l ≤ getHeight r + 1 ∧ getHeight r ≤ getHeight l + 1) := by
    omega
  simp [balancedOk, and_assoc, harith]

/-- Joint AVL structural invariant: correct stored heights plus balance. -/
def Avl (t : AVLNode) : Prop := heightsOk t = true ∧ balancedOk t = true

theorem avl_nil : Avl AVLNode.nil := ⟨rfl, rfl⟩

theorem avl_node {k : Str} {l r : AVLNode} {h : Nat} :
    Avl (AVLNode.node k l r h) ↔
      Avl l ∧ Avl r ∧ h = 1 + max (getHeight l) (getHeight r) ∧
        getHeight l ≤ getHeight r + 1 ∧ getHeight r ≤ getHeight l + 1 := by
  unfold Avl
  rw [heightsOk_node, balancedOk_node]
  tauto

/-- Shape of a subtree whose height just grew by an insertion of `key`:
either it is a single node, or its balance leans exactly towards the side
the key was inserted on. -/
def GrowsOk (key : Str) (t : AVLNode) : Prop :=
  getHeight t = 1 ∨
    (getBalance t = 1 ∧ key < nodeKey t) ∨
    (getBalance t = -1 ∧ nodeKey t < key)

theorem rebalance_noRot (k key : Str) (l r : AVLNode) (h0 : Nat)
    (hb1 : getHeight l ≤ getHeight r + 1) (hb2 : getHeight r ≤ getHeight l + 1) :
    rebalanceAfterInsert (AVLNode.node k l r h0) key =
      AVLNode.node k l r (1 + max (getHeight l) (getHeight r)) := by
  simp only [rebalanceAfterInsert]
  split_ifs with c1 c2 c3 c4
  · exact absurd c1.1 (by omega)
  · exact absurd c2.1 (by omega)
  · exact absurd c3.1 (by omega)
  · exact absurd c4.1 (by omega)
  · rfl

theorem rebalance_leftHeavy (k key : Str) (l r : AVLNode) (h0 : Nat)
    (hal : Avl l) (har : Avl r)
    (hh : getHeight l = getHeight r + 2) (hg : GrowsOk key l) :
    Avl (rebalanceAfterInsert (AVLNode.node k l r h0) key) ∧
      getHeight (rebalanceAfterInsert (AVLNode.node k l r h0) key) = getHeight l := by
  cases l with
  | nil =>
    rw [getHeight_nil] at hh
    exact absurd hh (by omega)
  | node kl a b hl =>
    rw [avl_node] at hal
    obtain ⟨haa, hab, hhl, hba1, hba2⟩ := hal
    rw [getHeight_node] at hh
    rcases hg with hg1 | ⟨hgb, hgk⟩ | ⟨hgb, hgk⟩
    · rw [getHeight_node] at hg1
      exact absurd hg1 (by omega)
    · -- Left-Left: the left child leans left, single right rotation.
      rw [getBalance_node] at hgb
      rw [nodeKey_node] at hgk
      simp only [rebalanceAfterInsert, getHeight_node, nodeKey_node]
      split_ifs with c1 c2 c3 c4
      · simp only [rightRotate, getHeight_node]
        refine ⟨?_, by omega⟩
        simp only [avl_node, getHeight_node]
        exact ⟨haa, ⟨hab, har, by omega, by omega, by omega⟩,
          by omega, by omega, by omega⟩
      · exact absurd c2.1 (by omega)
      · exact absurd c3.2 (asymm hgk)
      · exact absurd c4.1 (by omega)
      · exact absurd ⟨by omega, hgk⟩ c1
    · -- Left-Right: the left child leans right, double rotation.
      rw [getBalance_node] at hgb
      rw [nodeKey_node] at hgk
      cases b with
      | nil =>
        rw [getHeight_nil] at hgb
        exact absurd hgb (by omega)
      | node kb b1 b2 hb =>
        rw [avl_node] at hab
        obtain ⟨hab1, hab2, hhb, hbb1, hbb2⟩ := hab
        simp only [getHeight_node] at hgb hhl hba1 hba2
        simp only [rebalanceAfterInsert, getHeight_node, nodeKey_node]
        split_ifs with c1 c2 c3 c4
        · exact absurd c1.2 (asymm hgk)
        · exact absurd c2.1 (by omega)
        · simp only [leftRotate, rightRotate, getHeight_node]
          refine ⟨?_, by omega⟩
          simp only [avl_node, getHeight_node]
          exact ⟨⟨haa, hab1, by omega, by omega, by omega⟩,
            ⟨hab2, har, by omega, by omega, by omega⟩,
            by omega, by omega, by omega⟩
        · exact absurd c4.1 (by omega)
        · exact absurd ⟨by omega, hgk⟩ c3

theorem rebalance_rightHeavy (k key : Str) (l r : AVLNode) (h0 : Nat)
    (hal : Avl l) (har : Avl r)
    (hh : getHeight r = getHeight l + 2) (hg : GrowsOk key r) :
    Avl (rebalanceAfterInsert (AVLNode.node k l r h0) key) ∧
      getHeight (rebalanceAfterInsert (AVLNode.node k l r h0) key) = getHeight r := by
  cases r with
  | nil =>
    rw [getHeight_nil] at hh
    exact absurd hh (by omega)
  | node kr a b hr =>
    rw [avl_node] at har
    obtain ⟨haa, hab, hhr, hba1, hba2⟩ := har
    rw [getHeight_node] at hh
    rcases hg with hg1 | ⟨hgb, hgk⟩ | ⟨hgb, hgk⟩
    · rw [getHeight_node] at hg1
      exact absurd hg1 (by omega)
    · -- Right-Left: the right child leans left, double rotation.
      rw [getBalance_node] at hgb
      rw [nodeKey_node] at hgk
      cases a with
      | nil =>
        rw [getHeight_nil] at hgb
        exact absurd hgb (by omega)
      | node ka a1 a2 han =>
        rw [avl_node] at haa
        obtain ⟨haa1, haa2, hha, hbaa1, hbaa2⟩ := haa
        simp only [getHeight_node] at hgb hhr hba1 hba2
        simp only [rebalanceAfterInsert, getHeight_node, nodeKey_node]
        split_ifs with c1 c2 c3 c4
        · exact absurd c1.1 (by omega)
        · exact absurd c2.2 (asymm hgk)
        · exact absurd c3.1 (by omega)
        · simp only [rightRotate, leftRotate, getHeight_node]
          refine ⟨?_, by omega⟩
          simp only [avl_node, getHeight_node]
          exact ⟨⟨hal, haa1, by omega, by omega, by omega⟩,
            ⟨haa2, hab, by omega, by omega, by omega⟩,
            by omega, by omega, by omega⟩
        · exact absurd ⟨by omega, hgk⟩ c4
    · -- Right-Right: the right child leans right, single left rotation.
      rw [getBalance_node] at hgb
      rw [nodeKey_node] at hgk
      simp only [rebalanceAfterInsert, getHeight_node, nodeKey_node]
      split_ifs with c1 c2 c3 c4
      · exact absurd c1.1 (by omega)
      · simp only [leftRotate, getHeight_node]
        refine ⟨?_, by omega⟩
        simp only [avl_node, getHeight_node]
        exact ⟨⟨hal, haa, by omega, by omega, by omega⟩, hab,
          by omega, by omega, by omega⟩
      · exact absurd c3.1 (by omega)
      · exact absurd c4.2 (asymm hgk)
      · exact absurd ⟨by omega, hgk⟩ c2

theorem insertAVL_avl (t : AVLNode) (key : Str) (ht : Avl t) :
    Avl (insertAVL t key) ∧
      (getHeight (insertAVL t key) = getHeight t ∨
        (getHeight (insertAVL t key) = getHeight t + 1 ∧
          GrowsOk key (insertAVL t key))) := by
  induction t with
  | nil =>
    refine ⟨⟨rfl, rfl⟩, Or.inr ⟨rfl, Or.inl rfl⟩⟩
  | node k l r h ihl ihr =>
    rw [avl_node] at ht
    obtain ⟨hal, har, hh, hb1, hb2⟩ := ht
    simp only [insertAVL]
    split_ifs with h1 h2
    · -- key < k: insertion goes into the left subtree
      obtain ⟨hal', hgr⟩ := ihl hal
      rcases hgr with heq | ⟨hinc, hgrows⟩
      · rw [rebalance_noRot k key _ r h (by omega) (by omega)]
        refine ⟨avl_node.mpr ⟨hal', har, rfl, by omega, by omega⟩, Or.inl ?_⟩
        simp only [getHeight_node]
        omega
      · rcases Nat.lt_trichotomy (getHeight l) (getHeight r) with hc | hc | hc
        · -- the left subtree was the lower one: now balanced, same height
          rw [rebalance_noRot k key _ r h (by omega) (by omega)]
          refine ⟨avl_node.mpr ⟨hal', har, rfl, by omega, by omega⟩, Or.inl ?_⟩
          simp only [getHeight_node]
          omega
        · -- both subtrees were equal: height grows, balance leans left
          rw [rebalance_noRot k key _ r h (by omega) (by omega)]
          refine ⟨avl_node.mpr ⟨hal', har, rfl, by omega, by omega⟩,
            Or.inr ⟨?_, ?_⟩⟩
          · simp only [getHeight_node]
            omega
          · right
            left
            rw [getBalance_node, nodeKey_node]
            exact ⟨by omega, h1⟩
        · -- the left subtree was already the higher one: rotation restores it
          have hres := rebalance_leftHeavy k key (insertAVL l key) r h hal' har
            (by omega) hgrows
          refine ⟨hres.1, Or.inl ?_⟩
          rw [hres.2, getHeight_node]
          omega
    · -- k < key: insertion goes into the right subtree
      obtain ⟨har', hgr⟩ := ihr har
      rcases hgr with heq | ⟨hinc, hgrows⟩
      · rw [rebalance_noRot k key l _ h (by omega) (by omega)]
        refine ⟨avl_node.mpr ⟨hal, har', rfl, by omega, by omega⟩, Or.inl ?_⟩
        simp only [getHeight_node]
        omega
      · rcases Nat.lt_trichotomy (getHeight r) (getHeight l) with hc | hc | hc
        · rw [rebalance_noRot k key l _ h (by omega) (by omega)]
          refine ⟨avl_node.mpr ⟨hal, har', rfl, by omega, by omega⟩, Or.inl ?_⟩
          simp only [getHeight_node]
          omega
        · rw [rebalance_noRot k key l _ h (by omega) (by omega)]
          refine ⟨avl_node.mpr ⟨hal, har', rfl, by omega, by omega⟩,
            Or.inr ⟨?_, ?_⟩⟩
          · simp only [getHeight_node]
            omega
          · right
            right
            rw [getBalance_node, nodeKey_node]
            exact ⟨by omega, h2⟩
        · have hres := rebalance_rightHeavy k key l (insertAVL r key) h hal har'
            (by omega) hgrows
          refine ⟨hres.1, Or.inl ?_⟩
          rw [hres.2, getHeight_node]
          omega
    · -- duplicate key: the tree is returned unchanged
      exact ⟨avl_node.mpr ⟨hal, har, hh, hb1, hb2⟩, Or.inl rfl⟩

theorem avl_foldl (ws : List Str) (t : AVLNode) (ht : Avl t) :
    Avl (ws.foldl insertAVL t) := by
  induction ws generalizing t with
  | nil => exact ht
  | cons w ws ih => exact ih _ (insertAVL_avl t w ht).1

theorem avl_buildDict (ws : List Str) : Avl (buildDict ws) :=
  avl_foldl ws AVLNode.nil avl_nil

theorem insertAVL_of_mem (t : AVLNode) (key : Str) (ht : Avl t)
    (hbst : List.Pairwise (· < ·) (inorder t)) (hmem : key ∈ inorder t) :
    insertAVL t key = t := by
  induction t with
  | nil => simp [inorder] at hmem
  | node k l r h ihl ihr =>
    rw [avl_node] at ht
    obtain ⟨hal, har, hh, hb1, hb2⟩ := ht
    rw [inorder] at hbst hmem
    rw [List.pairwise_append] at hbst
    obtain ⟨hbl, hkr, hcross⟩ := hbst
    rw [List.pairwise_cons] at hkr
    obtain ⟨hkx, hbr⟩ := hkr
    simp only [insertAVL]
    split_ifs with h1 h2
    · have hml : key ∈ inorder l := by
        rcases List.mem_append.mp hmem with hx | hx
        · exact hx
        · rcases List.mem_cons.mp hx with rfl | hx'
          · exact absurd h1 (lt_irrefl _)
          · exact absurd (lt_trans h1 (hkx key hx')) (lt_irrefl _)
      rw [ihl hal hbl hml]
      rw [rebalance_noRot k key l r h (by omega) (by omega), hh]
    · have hmr : key ∈ inorder r := by
        rcases List.mem_append.mp hmem with hx | hx
        · exact absurd (lt_trans h2 (hcross key hx k (List.mem_cons_self _ _)))
            (lt_irrefl _)
        · rcases List.mem_cons.mp hx with rfl | hx'
          · exact absurd h2 (lt_irrefl _)
          · exact hx'
      rw [ihr har hbr hmr]
      rw [rebalance_noRot k key l r h (by omega) (by omega), hh]
    · rfl

-- ===================== Claims C3, C4, C5, C9 =====================

/-- Claim C3: for every finite sequence of words inserted into an initially
empty dictionary via `insertAVL`, `searchAVL` returns true for every word
that appears in the sequence and false for every word that does not. -/
theorem claim_C3_search_correct (ws : List Str) (w : Str) :
    searchAVL (buildDict ws) w = true ↔ w ∈ ws :=
  searchAVL_buildDict_iff ws w

/-- Claim C4: after every insertion sequence into the initially empty
dictionary, every node of the tree has balance factor in `[-1, 1]` and
every stored height field equals 1 + max of its children's heights.
(Every tree reached "after a single insertion" is `buildDict` of some
prefix of the insertion sequence, so quantifying over all `ws` covers
every intermediate state.) -/
theorem claim_C4_avl_invariant (ws : List Str) :
    balancedOk (buildDict ws) = true ∧ heightsOk (buildDict ws) = true :=
  ⟨(avl_buildDict ws).2, (avl_buildDict ws).1⟩

/-- Claim C5: the in-order traversal of any dictionary built by insertions
is strictly sorted (hence duplicate-free), regardless of insertion order,
and each single rotation preserves the in-order traversal of the subtree
it is applied to. -/
theorem claim_C5_inorder_sorted :
    (∀ ws : List Str, List.Pairwise (· < ·) (inorder (buildDict ws))) ∧
      (∀ t : AVLNode,
        inorder (leftRotate t) = inorder t ∧ inorder (rightRotate t) = inorder t) :=
  ⟨pairwise_inorder_buildDict, fun t => ⟨inorder_leftRotate t, inorder_rightRotate t⟩⟩

/-- Claim C9: inserting the same word twice into a dictionary built by any
insertion sequence yields a tree identical to inserting it once — the second
insertion returns the structure unchanged — so all `searchAVL` results are
also unaffected. -/
theorem claim_C9_insert_idempotent (ws : List Str) (w : Str) :
    insertAVL (insertAVL (buildDict ws) w) w = insertAVL (buildDict ws) w ∧
      ∀ x : Str, searchAVL (insertAVL (insertAVL (buildDict ws) w) w) x =
        searchAVL (insertAVL (buildDict ws) w) x := by
  have hid : insertAVL (insertAVL (buildDict ws) w) w = insertAVL (buildDict ws) w := by
    have h1 : Avl (insertAVL (buildDict ws) w) :=
      (insertAVL_avl _ w (avl_buildDict ws)).1
    have h2 : List.Pairwise (· < ·) (inorder (insertAVL (buildDict ws) w)) :=
      pairwise_inorder_insertAVL _ w (pairwise_inorder_buildDict ws)
    have h3 : w ∈ inorder (insertAVL (buildDict ws) w) :=
      (mem_inorder_insertAVL _ w w).mpr (Or.inl rfl)
    exact insertAVL_of_mem _ w h1 h2 h3
  exact ⟨hid, fun x => by rw [hid]⟩

-- ============== KMP string matcher (lines 204-272) ==============

/-- Loop of `computeLPS` (lines 223-230): state is the partially filled
`lps` array, the running border length `len` and the index `i`.  The fuel
argument stands in for the `while (i < m)` loop; `computeLPS` passes fuel
that is proved sufficient below, so the `0`-fuel clause is never reached. -/
def lpsLoop (p : List Char) (m : Nat) : Nat → List Nat → Nat → Nat → List Nat
  | 0, lps, _, _ => lps
  | fuel + 1, lps, len, i =>
    if i < m then
      if p.getD i 'a' = p.getD len 'a' then
        lpsLoop p m fuel (lps.set i (len + 1)) (len + 1) (i + 1)
      else if len ≠ 0 then
        lpsLoop p m fuel lps (lps.getD (len - 1) 0) i
      else
        lpsLoop p m fuel (lps.set i 0) len (i + 1)
    else lps

/-- `KMPStringMatcher::computeLPS` (lines 217-232): `lps` starts as
`m` zeros, `len = 0`, `i = 1`. -/
def computeLPS (p : List Char) : List Nat :=
  lpsLoop p p.length (2 * p.length) (List.replicate p.length 0) 0 1

/-- Loop of `findPatternOccurrences` (lines 248-261).  The body first
advances both pointers on a character match, then (on the updated state)
either records a full match via the failure table, or handles a mismatch
by falling back through the table / advancing the text pointer. -/
def kmpLoop (t p : List Char) (lps : List Nat) (n m : Nat) :
    Nat → Nat → Nat → List Nat → List Nat
  | 0, _, _, occ => occ
  | fuel + 1, i, j, occ =>
    if i < n then
      let ij := if p.getD j 'a' = t.getD i 'a' then (i + 1, j + 1) else (i, j)
      if ij.2 = m then
        kmpLoop t p lps n m fuel ij.1 (lps.getD (ij.2 - 1) 0) (occ ++ [ij.1 - ij.2])
      else if ij.1 < n ∧ ¬p.getD ij.2 'a' = t.getD ij.1 'a' then
        if ij.2 ≠ 0 then
          kmpLoop t p lps n m fuel ij.1 (lps.getD (ij.2 - 1) 0) occ
        else
          kmpLoop t p lps n m fuel (ij.1 + 1) ij.2 occ
      else
        kmpLoop t p lps n m fuel ij.1 ij.2 occ
    else occ

/-- `KMPStringMatcher::findPatternOccurrences` (lines 239-263). -/
def findPatternOccurrences (text pattern : List Char) : List Nat :=
  if pattern.length = 0 then []
  else
    kmpLoop text pattern (computeLPS pattern) text.length pattern.length
      (2 * text.length + 1) 0 0 []

/-- `KMPStringMatcher::containsPattern` (lines 269-271). -/
def containsPattern (text pattern : List Char) : Bool :=
  !(findPatternOccurrences text pattern).isEmpty

-- ============== specification side: substring occurrences ==============

/-- Specification predicate: the pattern occurs in the text at start
offset `q`, i.e. the substring of length `|pattern|` beginning at `q`
equals the pattern (this forces `q + |pattern| ≤ |text|`). -/
def occursAt (t p : List Char) (q : Nat) : Prop :=
  (t.drop q).take p.length = p

instance occursAt.instDecidable (t p : List Char) (q : Nat) :
    Decidable (occursAt t p q) :=
  inferInstanceAs (Decidable ((t.drop q).take p.length = p))

/-- Specification occurrence list: every valid start offset, in increasing
order (written from the spec's testable property for `findOccurrences`). -/
def specOccurrences (t p : List Char) : List Nat :=
  (List.range (t.length + 1 - p.length)).filter fun q => decide (occursAt t p q)

/-- `k` is the length of a proper border of `u`: `u.take k` is both a
strict prefix and a suffix of `u`. -/
def IsBorder (k : Nat) (u : List Char) : Prop :=
  k < u.length ∧ u.take k = u.drop (u.length - k)

/-- Length of the longest proper border of `u`. -/
def maxBorder (u : List Char) : Nat :=
  Nat.findGreatest (fun k => u.take k = u.drop (u.length - k)) (u.length - 1)

example : computeLPS ['a', 'a', 'b', 'a', 'a', 'a', 'b'] = [0, 1, 0, 1, 2, 2, 3] := by decide
example : findPatternOccurrences ['a', 'a', 'a', 'a'] ['a', 'a'] = [0, 1, 2] := by decide
example : specOccurrences ['a', 'a', 'a', 'a'] ['a', 'a'] = [0, 1, 2] := by decide
example : findPatternOccurrences ['a', 'b', 'c'] ['b', 'c'] = [1] := by decide
example : findPatternOccurrences ['a', 'b', 'c'] [] = [] := by decide
example : containsPattern ['a', 'b', 'c'] ['c', 'b'] = false := by decide
example : maxBorder ['a', 'b', 'a'] = 1 := by decide
example : maxBorder ['a', 'a'] = 1 := by decide

-- ============== border theory for the failure table ==============

theorem getD_drop (l : List Char) (a b : Nat) (d : Char) :
    (l.drop a).getD b d = l.getD (a + b) d := by
  rw [List.getD_eq_getElem?_getD, List.getD_eq_getElem?_getD, List.getElem?_drop]

theorem getD_take {l : List Char} {n k : Nat} (hk : k < n) (d : Char) :
    (l.take n).getD k d = l.getD k d := by
  rw [List.getD_eq_getElem?_getD, List.getD_eq_getElem?_getD, List.getElem?_take,
    if_pos hk]

theorem take_succ_getD (l : List Char) (n : Nat) (d : Char) (h : n < l.length) :
    l.take (n + 1) = l.take n ++ [l.getD n d] := by
  rw [List.take_succ]
  congr 1
  rw [List.getElem?_eq_getElem h]
  simp [List.getD_eq_getElem?_getD, List.getElem?_eq_getElem h]

theorem isBorder_zero (u : List Char) (hu : u ≠ []) : IsBorder 0 u := by
  refine ⟨List.length_pos.mpr hu, ?_⟩
  simp

theorem maxBorder_lt (u : List Char) (hu : u ≠ []) : maxBorder u < u.length := by
  have h1 := Nat.findGreatest_le
    (P := fun k => u.take k = u.drop (u.length - k)) (u.length - 1)
  have h2 : 0 < u.length := List.length_pos.mpr hu
  unfold maxBorder
  omega

theorem isBorder_maxBorder (u : List Char) (hu : u ≠ []) :
    IsBorder (maxBorder u) u := by
  refine ⟨maxBorder_lt u hu, ?_⟩
  have h0 : List.take 0 u = List.drop (u.length - 0) u := by
    simp
  have h1 := Nat.findGreatest_spec (P := fun k => u.take k = u.drop (u.length - k))
    (m := 0) (n := u.length - 1) (Nat.zero_le _) h0
  exact h1

theorem le_maxBorder {u : List Char} {k : Nat} (hk : IsBorder k u) :
    k ≤ maxBorder u := by
  exact Nat.le_findGreatest (by have := hk.1; omega) hk.2

/-- Window arithmetic: the last `k` characters of the window of length `j`
ending at position `i` form the window of length `k` ending at `i`. -/
theorem drop_window {t : List Char} {i j k : Nat} (hj : j ≤ i) (hk : k ≤ j) :
    (t.drop (i - k)).take k = ((t.drop (i - j)).take j).drop (j - k) := by
  have h1 : i - k = (i - j) + (j - k) := by omega
  rw [h1, ← List.drop_drop, List.drop_take]
  congr 1
  omega

theorem window_sub {t p : List Char} {i j k : Nat} (hj : j ≤ i) (hk : k ≤ j)
    (hm : (t.drop (i - j)).take j = p.take j) :
    (t.drop (i - k)).take k = (p.take j).drop (j - k) := by
  rw [drop_window hj hk, hm]

theorem isBorder_take_iff {p : List Char} {j k : Nat} (hj : j ≤ p.length)
    (hk : k < j) :
    IsBorder k (p.take j) ↔ (p.take j).drop (j - k) = p.take k := by
  unfold IsBorder
  rw [List.length_take, List.take_take]
  have h1 : min j p.length = j := by omega
  have h2 : min k j = k := by omega
  rw [h1, h2]
  constructor
  · exact fun h => h.2.symm
  · exact fun h => ⟨hk, h.symm⟩

theorem border_trans {u : List Char} {j k : Nat}
    (hj : IsBorder j (u.take k)) (hk : IsBorder k u) : IsBorder j u := by
  obtain ⟨hj1, hj2⟩ := hj
  obtain ⟨hk1, hk2⟩ := hk
  have hlen : (u.take k).length = k := by
    rw [List.length_take]
    omega
  rw [hlen] at hj1 hj2
  refine ⟨by omega, ?_⟩
  have e1 : (u.take k).take j = u.take j := by
    rw [List.take_take]
    congr 1
    omega
  have e2 : (u.take k).drop (k - j) = u.drop (u.length - j) := by
    rw [hk2, List.drop_drop]
    congr 1
    omega
  calc u.take j = (u.take k).take j := e1.symm
    _ = (u.take k).drop (k - j) := hj2
    _ = u.drop (u.length - j) := e2

theorem border_down {u : List Char} {j k : Nat}
    (hbj : IsBorder j u) (hbk : IsBorder k u) (hjk : j < k) :
    IsBorder j (u.take k) := by
  obtain ⟨hj1, hj2⟩ := hbj
  obtain ⟨hk1, hk2⟩ := hbk
  have hlen : (u.take k).length = k := by
    rw [List.length_take]
    omega
  unfold IsBorder
  rw [hlen]
  refine ⟨hjk, ?_⟩
  have e1 : (u.take k).take j = u.take j := by
    rw [List.take_take]
    congr 1
    omega
  rw [e1, hk2, List.drop_drop]
  have e2 : (u.length - k) + (k - j) = u.length - j := by omega
  rw [e2]
  exact hj2

/-- Border extension: `k+1` is a border length of `p.take (i+1)` iff `k` is
a border length of `p.take i` and the characters `p[k]`, `p[i]` agree. -/
theorem isBorder_succ_iff {p : List Char} {i k : Nat} (hi : i < p.length) :
    IsBorder (k + 1) (p.take (i + 1)) ↔
      IsBorder k (p.take i) ∧ p.getD k 'a' = p.getD i 'a' := by
  have hlen1 : (p.take (i + 1)).length = i + 1 := by
    rw [List.length_take]
    omega
  have hlen0 : (p.take i).length = i := by
    rw [List.length_take]
    omega
  constructor
  · rintro ⟨hk1, hk2⟩
    rw [hlen1] at hk1 hk2
    have hki : k < i := by omega
    have e1 : (p.take (i + 1)).take (k + 1) = p.take (k + 1) := by
      rw [List.take_take]
      congr 1
      omega
    have e0 : i + 1 - (k + 1) = i - k := by omega
    have e2 : (p.take (i + 1)).drop (i - k) = (p.drop (i - k)).take (k + 1) := by
      rw [List.drop_take]
      congr 1
      omega
    rw [e0, e1, e2] at hk2
    rw [take_succ_getD p k 'a' (by omega),
      take_succ_getD (p.drop (i - k)) k 'a' (by rw [List.length_drop]; omega)] at hk2
    obtain ⟨hpre, hsuf⟩ := List.append_inj hk2 (by
      rw [List.length_take, List.length_take, List.length_drop]
      omega)
    have hchar : p.getD k 'a' = p.getD i 'a' := by
      rw [getD_drop] at hsuf
      have e5 : i - k + k = i := by omega
      rw [e5] at hsuf
      simpa using hsuf
    refine ⟨⟨?_, ?_⟩, hchar⟩
    · rw [hlen0]
      omega
    · rw [hlen0]
      have e3 : (p.take i).take k = p.take k := by
        rw [List.take_take]
        congr 1
        omega
      have e4 : (p.take i).drop (i - k) = (p.drop (i - k)).take k := by
        rw [List.drop_take]
        congr 1
        omega
      rw [e3, e4, hpre]
  · rintro ⟨⟨hki, hb⟩, hc⟩
    rw [hlen0] at hki hb
    unfold IsBorder
    rw [hlen1]
    refine ⟨by omega, ?_⟩
    have e1 : (p.take (i + 1)).take (k + 1) = p.take (k + 1) := by
      rw [List.take_take]
      congr 1
      omega
    have e0 : i + 1 - (k + 1) = i - k := by omega
    have e2 : (p.take (i + 1)).drop (i - k) = (p.drop (i - k)).take (k + 1) := by
      rw [List.drop_take]
      congr 1
      omega
    rw [e0, e1, e2]
    rw [take_succ_getD p k 'a' (by omega),
      take_succ_getD (p.drop (i - k)) k 'a' (by rw [List.length_drop]; omega)]
    have e3 : (p.take i).take k = p.take k := by
      rw [List.take_take]
      congr 1
      omega
    have e4 : (p.take i).drop (i - k) = (p.drop (i - k)).take k := by
      rw [List.drop_take]
      congr 1
      omega
    rw [e3, e4] at hb
    rw [hb, getD_drop]
    have e5 : i - k + k = i := by omega
    rw [e5, hc]

theorem getD_set_self {l : List Nat} {i v : Nat} (h : i < l.length) :
    (l.set i v).getD i 0 = v := by
  rw [List.getD_eq_getElem?_getD, List.getElem?_set]
  simp [h]

theorem getD_set_other {l : List Nat} (i j v : Nat) (h : j ≠ i) :
    (l.set i v).getD j 0 = l.getD j 0 := by
  rw [List.getD_eq_getElem?_getD, List.getD_eq_getElem?_getD, List.getElem?_set]
  simp [Ne.symm h]

theorem take_ne_nil {p : List Char} {n : Nat} (h1 : 0 < n) (h2 : 0 < p.length) :
    p.take n ≠ [] := by
  have : (p.take n).length > 0 := by
    rw [List.length_take]
    omega
  exact List.length_pos.mp this

theorem maxBorder_take_le {p : List Char} {j : Nat} (hj : j < p.length) :
    maxBorder (p.take (j + 1)) ≤ j := by
  have h := maxBorder_lt (p.take (j + 1)) (take_ne_nil (by omega) (by omega))
  rw [List.length_take] at h
  omega

/-- Invariant-carrying correctness of the `computeLPS` loop: starting from a
state where `len` is a border length of `p.take i` whose longer alternatives
have all failed to extend by `p[i]`, and where `lps[0..i)` is already the
maximal-border table, the loop fills the whole table. -/
theorem lpsLoop_correct (p : List Char) (fuel : Nat) :
    ∀ lps len i,
      1 ≤ i → i ≤ p.length → len < i → lps.length = p.length →
      IsBorder len (p.take i) →
      (∀ k, len < k → IsBorder k (p.take i) → ¬p.getD k 'a' = p.getD i 'a') →
      (∀ j, j < i → lps.getD j 0 = maxBorder (p.take (j + 1))) →
      2 * (p.length - i) + len < fuel →
      (∀ j, j < p.length →
        (lpsLoop p p.length fuel lps len i).getD j 0 = maxBorder (p.take (j + 1))) ∧
      (lpsLoop p p.length fuel lps len i).length = p.length := by
  induction fuel with
  | zero =>
    intro lps len i _ _ _ _ _ _ _ hfuel
    omega
  | succ fuel ih =>
    intro lps len i h1 h2 h3 h4 h5 h6 h7 hfuel
    simp only [lpsLoop]
    split_ifs with hin hmatch hlen0
    · -- character match: p[i] = p[len]
      have hb1 : IsBorder (len + 1) (p.take (i + 1)) :=
        (isBorder_succ_iff hin).mpr ⟨h5, hmatch.symm⟩
      have hmax : maxBorder (p.take (i + 1)) = len + 1 := by
        refine le_antisymm ?_ (le_maxBorder hb1)
        rcases hM : maxBorder (p.take (i + 1)) with _ | K
        · omega
        · have hbM : IsBorder (K + 1) (p.take (i + 1)) := by
            rw [← hM]
            exact isBorder_maxBorder _ (take_ne_nil (by omega) (by omega))
          obtain ⟨hbK, hcK⟩ := (isBorder_succ_iff hin).mp hbM
          by_contra hgt
          exact h6 K (by omega) hbK hcK
      refine ih (lps.set i (len + 1)) (len + 1) (i + 1) (by omega) (by omega)
        (by omega) (by rw [List.length_set]; exact h4) hb1 ?_ ?_ (by omega)
      · intro k hk hbk
        have := le_maxBorder hbk
        rw [hmax] at this
        omega
      · intro j hj
        rcases Nat.lt_or_ge j i with hji | hji
        · rw [getD_set_other i j _ (by omega)]
          exact h7 j hji
        · have hji' : j = i := by omega
          subst hji'
          rw [getD_set_self (by omega), hmax]
    · -- mismatch with len ≠ 0: fall back through the table
      have hlen1 : 1 ≤ len := by omega
      have hlval : lps.getD (len - 1) 0 = maxBorder (p.take len) := by
        have := h7 (len - 1) (by omega)
        have e : len - 1 + 1 = len := by omega
        rw [e] at this
        exact this
      have htl : (p.take i).take len = p.take len := by
        rw [List.take_take]
        congr 1
        omega
      have hbl : IsBorder (maxBorder (p.take len)) (p.take len) :=
        isBorder_maxBorder _ (take_ne_nil (by omega) (by omega))
      have hlt : maxBorder (p.take len) < len := by
        have := maxBorder_lt (p.take len) (take_ne_nil (by omega) (by omega))
        rw [List.length_take] at this
        omega
      have h5' : IsBorder (maxBorder (p.take len)) (p.take i) := by
        refine border_trans ?_ h5
        rw [htl]
        exact hbl
      rw [hlval]
      refine ih lps (maxBorder (p.take len)) i h1 h2 (by omega) h4 h5' ?_ h7
        (by omega)
      intro k hk hbk
      rcases Nat.lt_trichotomy k len with hkl | hkl | hkl
      · -- a border between the fallback value and len cannot exist
        intro _
        have hdown : IsBorder k (p.take len) := by
          rw [← htl]
          exact border_down hbk h5 hkl
        have := le_maxBorder hdown
        omega
      · subst hkl
        intro hc
        exact hmatch hc.symm
      · exact h6 k hkl hbk
    · -- mismatch with len = 0: record 0 and advance
      have hlz : len = 0 := by omega
      subst hlz
      have hmax0 : maxBorder (p.take (i + 1)) = 0 := by
        rcases hM : maxBorder (p.take (i + 1)) with _ | K
        · rfl
        · exfalso
          have hbM : IsBorder (K + 1) (p.take (i + 1)) := by
            rw [← hM]
            exact isBorder_maxBorder _ (take_ne_nil (by omega) (by omega))
          obtain ⟨hbK, hcK⟩ := (isBorder_succ_iff hin).mp hbM
          rcases Nat.eq_zero_or_pos K with hK0 | hKpos
          · subst hK0
            exact hmatch hcK.symm
          · exact h6 K hKpos hbK hcK
      refine ih (lps.set i 0) 0 (i + 1) (by omega) (by omega) (by omega)
        (by rw [List.length_set]; exact h4)
        (isBorder_zero _ (take_ne_nil (by omega) (by omega))) ?_ ?_ (by omega)
      · intro k hk hbk
        have := le_maxBorder hbk
        rw [hmax0] at this
        omega
      · intro j hj
        rcases Nat.lt_or_ge j i with hji | hji
        · rw [getD_set_other i j _ (by omega)]
          exact h7 j hji
        · have hji' : j = i := by omega
          subst hji'
          rw [getD_set_self (by omega), hmax0]
    · -- i = m: the loop is done and the table is fully filled
      have : i = p.length := by omega
      subst this
      exact ⟨fun j hj => h7 j hj, h4⟩

theorem computeLPS_correct (p : List Char) (j : Nat) (hj : j < p.length) :
    (computeLPS p).getD j 0 = maxBorder (p.take (j + 1)) := by
  have hm : 1 ≤ p.length := by omega
  have hmax1 : maxBorder (p.take 1) = 0 := by
    unfold maxBorder
    rw [List.length_take]
    have e : min 1 p.length - 1 = 0 := by omega
    rw [e]
    exact Nat.findGreatest_zero
  have h := lpsLoop_correct p (2 * p.length) (List.replicate p.length 0) 0 1
    (by omega) hm (by omega) (by rw [List.length_replicate]) 
    (isBorder_zero _ (take_ne_nil (by omega) (by omega)))
    (by
      intro k hk hbk
      have hx := hbk.1
      rw [List.length_take] at hx
      omega)
    (by
      intro j0 hj0
      have e : j0 = 0 := by omega
      subst e
      rw [List.getD_eq_getElem?_getD, List.getElem?_replicate, if_pos (show 0 < p.length from hm)]
      simpa using hmax1.symm)
    (by omega)
  exact h.1 j hj

-- ============== KMP search loop invariants ==============

theorem window_extend {t p : List Char} {i j : Nat} (hin : i < t.length)
    (hj : j ≤ i) (hjm : j < p.length)
    (hW : (t.drop (i - j)).take j = p.take j)
    (hch : p.getD j 'a' = t.getD i 'a') :
    (t.drop (i + 1 - (j + 1))).take (j + 1) = p.take (j + 1) := by
  have e : i + 1 - (j + 1) = i - j := by omega
  rw [e, take_succ_getD (t.drop (i - j)) j 'a' (by rw [List.length_drop]; omega),
    take_succ_getD p j 'a' hjm, hW, getD_drop]
  have e2 : i - j + j = i := by omega
  rw [e2, hch]

theorem occursAt_length {t p : List Char} {q : Nat} (hm : 1 ≤ p.length)
    (h : occursAt t p q) : q + p.length ≤ t.length := by
  unfold occursAt at h
  have h2 := congrArg List.length h
  rw [List.length_take, List.length_drop] at h2
  omega

theorem occursAt_prefix {t p : List Char} {q k : Nat} (h : occursAt t p q)
    (hk : k ≤ p.length) : (t.drop q).take k = p.take k := by
  unfold occursAt at h
  have h2 := congrArg (List.take k) h
  rw [List.take_take] at h2
  have e : min k p.length = k := by omega
  rw [e] at h2
  exact h2

theorem occursAt_getD {t p : List Char} {q a : Nat} (h : occursAt t p q)
    (ha : a < p.length) : t.getD (q + a) 'a' = p.getD a 'a' := by
  unfold occursAt at h
  have h2 : ((t.drop q).take p.length).getD a 'a' = p.getD a 'a' := by rw [h]
  rw [getD_take ha, getD_drop] at h2
  exact h2

theorem matches_border {t p : List Char} {i j k : Nat} (hj : j ≤ i)
    (hjm : j ≤ p.length) (hW : (t.drop (i - j)).take j = p.take j)
    (hk : k < j) (hMk : (t.drop (i - k)).take k = p.take k) :
    IsBorder k (p.take j) := by
  have h2 := window_sub hj (le_of_lt hk) hW
  rw [hMk] at h2
  exact (isBorder_take_iff hjm hk).mpr h2.symm

theorem no_middle_occurrence {t p : List Char} {i j q : Nat} (hj : j ≤ i)
    (hjm : j ≤ p.length) (hW : (t.drop (i - j)).take j = p.take j)
    (hq1 : i - j < q) (hq2 : q ≤ i) (hocc : occursAt t p q) :
    i - q ≤ maxBorder (p.take j) := by
  have hk : i - q < j := by omega
  have hpre := occursAt_prefix (k := i - q) hocc (by omega)
  have he : i - (i - q) = q := by omega
  refine le_maxBorder (matches_border hj hjm hW hk ?_)
  rw [he]
  exact hpre

theorem filter_range_step {t p : List Char} {i : Nat}
    (h : p.length ≤ i + 1 → ¬occursAt t p (i + 1 - p.length)) :
    (List.range (i + 2 - p.length)).filter (fun q => decide (occursAt t p q)) =
      (List.range (i + 1 - p.length)).filter (fun q => decide (occursAt t p q)) := by
  rcases Nat.lt_or_ge (i + 1) p.length with hc | hc
  · have e : i + 2 - p.length = i + 1 - p.length := by omega
    rw [e]
  · have e : i + 2 - p.length = (i + 1 - p.length) + 1 := by omega
    rw [e, List.range_succ (i + 1 - p.length), List.filter_append]
    have hd : decide (occursAt t p (i + 1 - p.length)) = false :=
      decide_eq_false (h hc)
    simp [hd]

theorem filter_range_record {t p : List Char} {i : Nat} (hm : p.length ≤ i + 1)
    (hocc : occursAt t p (i + 1 - p.length)) :
    (List.range (i + 2 - p.length)).filter (fun q => decide (occursAt t p q)) =
      (List.range (i + 1 - p.length)).filter (fun q => decide (occursAt t p q))
        ++ [i + 1 - p.length] := by
  have e : i + 2 - p.length = (i + 1 - p.length) + 1 := by omega
  rw [e, List.range_succ (i + 1 - p.length), List.filter_append]
  have hd : decide (occursAt t p (i + 1 - p.length)) = true := decide_eq_true hocc
  simp [hd]

/-- Invariant-carrying correctness of the KMP matching loop: `j` is the
length of a pattern prefix matching the text window ending at `i`, every
occurrence starting strictly left of `i - j` has already been passed, and
`occ` is exactly the list of occurrences that end at or before `i`. -/
theorem kmpLoop_correct (t p : List Char) (hm : 1 ≤ p.length) (fuel : Nat) :
    ∀ i j occ,
      i ≤ t.length → j ≤ i → j < p.length →
      (t.drop (i - j)).take j = p.take j →
      (∀ q, q < i - j → occursAt t p q → q + p.length ≤ i) →
      occ = (List.range (i + 1 - p.length)).filter (fun q => decide (occursAt t p q)) →
      2 * (t.length - i) + j < fuel →
      kmpLoop t p (computeLPS p) t.length p.length fuel i j occ =
        (List.range (t.length + 1 - p.length)).filter
          (fun q => decide (occursAt t p q)) := by
  induction fuel with
  | zero =>
    intro i j occ _ _ _ _ _ _ hfuel
    exact absurd hfuel (by omega)
  | succ fuel ih =>
    intro i j occ hI1 hI2 hI3 hI4 hI5 hI6 hfuel
    by_cases hin : i < t.length
    · by_cases hch : p.getD j 'a' = t.getD i 'a'
      · -- character match: both pointers advance, then the updated state
        -- is inspected for a full match or a fresh mismatch
        have hW := window_extend hin hI2 hI3 hI4 hch
        simp only [kmpLoop, if_pos hin, if_pos hch, Nat.add_sub_cancel]
        split_ifs with hjm hmis hjz
        · -- full match recorded at offset i + 1 - m
          have hocc0 : occursAt t p (i + 1 - p.length) := by
            have hW2 : (t.drop (i + 1 - (j + 1))).take (j + 1) = p := by
              rw [hW, hjm, List.take_length]
            show (t.drop (i + 1 - p.length)).take p.length = p
            rw [← hjm]
            exact hW2
          have hmle : p.length ≤ i + 1 := by omega
          have hpne : p ≠ [] := List.length_pos.mp hm
          have hmb : maxBorder p < p.length := maxBorder_lt p hpne
          have hlpsv : (computeLPS p).getD j 0 = maxBorder p := by
            have h := computeLPS_correct p j hI3
            rw [hjm, List.take_length] at h
            exact h
          have hWm : (t.drop (i + 1 - p.length)).take p.length = p.take p.length := by
            rw [List.take_length]
            exact hocc0
          rw [hlpsv, show i + 1 - (j + 1) = i + 1 - p.length from by omega]
          refine ih (i + 1) (maxBorder p) (occ ++ [i + 1 - p.length])
            (by omega) (by omega) hmb ?_ ?_ ?_ (by omega)
          · have hb := isBorder_maxBorder p hpne
            have hsub := window_sub (p := p) (i := i + 1) (j := p.length)
              (k := maxBorder p) (by omega) (by omega) hWm
            rw [List.take_length] at hsub
            rw [hsub, ← hb.2]
          · intro q hq hocc
            rcases Nat.lt_trichotomy q (i + 1 - p.length) with hc | hc | hc
            · have := hI5 q (by omega) hocc
              omega
            · omega
            · exfalso
              have hmid := no_middle_occurrence (i := i + 1) (j := p.length)
                (q := q) (by omega) (by omega) hWm (by omega) (by omega) hocc
              rw [List.take_length] at hmid
              omega
          · rw [show i + 1 + 1 - p.length = i + 2 - p.length from by omega,
              filter_range_record hmle hocc0, ← hI6]
        · -- match followed by a mismatch on the updated state: fall back
          have hj1m : j + 1 < p.length := by
            rcases Nat.lt_or_ge (j + 1) p.length with h | h
            · exact h
            · exact absurd (by omega) hjm
          have hlpsv : (computeLPS p).getD j 0 = maxBorder (p.take (j + 1)) :=
            computeLPS_correct p j hI3
          have hmble : maxBorder (p.take (j + 1)) ≤ j := maxBorder_take_le hI3
          rw [hlpsv]
          refine ih (i + 1) (maxBorder (p.take (j + 1))) occ
            (by omega) (by omega) (by omega) ?_ ?_ ?_ (by omega)
          · have hbb := isBorder_maxBorder (p.take (j + 1))
              (take_ne_nil (by omega) (by omega))
            have hsub := window_sub (p := p) (i := i + 1) (j := j + 1)
              (k := maxBorder (p.take (j + 1))) (by omega) (by omega) hW
            rw [hsub]
            exact (isBorder_take_iff (by omega) (by
              have := maxBorder_lt (p.take (j + 1)) (take_ne_nil (by omega) (by omega))
              rw [List.length_take] at this
              omega)).mp hbb
          · intro q hq hocc
            rcases Nat.lt_trichotomy q (i - j) with hc | hc | hc
            · have := hI5 q (by omega) hocc
              omega
            · exfalso
              have hcg := occursAt_getD hocc hj1m
              rw [show q + (j + 1) = i + 1 from by omega] at hcg
              exact hmis.2 hcg.symm
            · exfalso
              have hmid := no_middle_occurrence (i := i + 1) (j := j + 1)
                (q := q) (by omega) (by omega) hW (by omega) (by omega) hocc
              omega
          · rw [show i + 1 + 1 - p.length = i + 2 - p.length from by omega,
              filter_range_step ?_]
            · exact hI6
            · intro hmle hocc
              have := hI5 (i + 1 - p.length) (by omega) hocc
              omega
        · exact absurd (by omega : j + 1 ≠ 0) hjz
        · -- plain advance: the next characters still match (or the text ended)
          have hj1m : j + 1 < p.length := by
            rcases Nat.lt_or_ge (j + 1) p.length with h | h
            · exact h
            · exact absurd (by omega) hjm
          refine ih (i + 1) (j + 1) occ (by omega) (by omega) hj1m hW ?_ ?_
            (by omega)
          · intro q hq hocc
            have := hI5 q (by omega) hocc
            omega
          · rw [show i + 1 + 1 - p.length = i + 2 - p.length from by omega,
              filter_range_step ?_]
            · exact hI6
            · intro hmle hocc
              have := hI5 (i + 1 - p.length) (by omega) hocc
              omega
      · -- mismatch at the current state
        simp only [kmpLoop, if_pos hin, if_neg hch]
        split_ifs with hjm hmis hjz
        · exact absurd hjm (by omega)
        · -- fall back through the failure table at the same text position
          have hlpsv : (computeLPS p).getD (j - 1) 0 = maxBorder (p.take j) := by
            have h := computeLPS_correct p (j - 1) (by omega)
            rw [show j - 1 + 1 = j from by omega] at h
            exact h
          have hjpos : 1 ≤ j := by omega
          have hmlt : maxBorder (p.take j) < j := by
            have := maxBorder_lt (p.take j) (take_ne_nil (by omega) (by omega))
            rw [List.length_take] at this
            omega
          rw [hlpsv]
          refine ih i (maxBorder (p.take j)) occ hI1 (by omega) (by omega)
            ?_ ?_ hI6 (by omega)
          · have hbb := isBorder_maxBorder (p.take j)
              (take_ne_nil (by omega) (by omega))
            have hsub := window_sub (p := p) (i := i) (j := j)
              (k := maxBorder (p.take j)) hI2 (by omega) hI4
            rw [hsub]
            exact (isBorder_take_iff (by omega) hmlt).mp hbb
          · intro q hq hocc
            rcases Nat.lt_trichotomy q (i - j) with hc | hc | hc
            · exact hI5 q (by omega) hocc
            · exfalso
              have hcg := occursAt_getD hocc hI3
              rw [show q + j = i from by omega] at hcg
              exact hch hcg.symm
            · exfalso
              have hmid := no_middle_occurrence (i := i) (j := j) (q := q)
                hI2 (by omega) hI4 (by omega) (by omega) hocc
              omega
        · -- j = 0: no prefix matched, advance the text pointer
          have hj0 : j = 0 := by omega
          subst hj0
          refine ih (i + 1) 0 occ (by omega) (by omega) (by omega)
            (by rw [List.take_zero, List.take_zero]) ?_ ?_ (by omega)
          · intro q hq hocc
            rcases Nat.lt_trichotomy q i with hc | hc | hc
            · have := hI5 q (by omega) hocc
              omega
            · exfalso
              have hcg := occursAt_getD hocc (a := 0) (by omega)
              rw [show q + 0 = i from by omega] at hcg
              exact hch hcg.symm
            · omega
          · rw [show i + 1 + 1 - p.length = i + 2 - p.length from by omega,
              filter_range_step ?_]
            · exact hI6
            · intro hmle hocc
              rcases Nat.lt_trichotomy (i + 1 - p.length) i with hc | hc | hc
              · have := hI5 (i + 1 - p.length) (by omega) hocc
                omega
              · have hcg := occursAt_getD hocc (a := 0) (by omega)
                rw [show i + 1 - p.length + 0 = i from by omega] at hcg
                exact hch hcg.symm
              · omega
        · exact absurd ⟨hin, hch⟩ hmis
    · -- i = n: the loop terminates with the full occurrence list
      simp only [kmpLoop, if_neg hin]
      have he : i = t.length := by omega
      subst he
      exact hI6

theorem findPatternOccurrences_correct (t p : List Char) (hp : p ≠ []) :
    findPatternOccurrences t p = specOccurrences t p := by
  have hm : 1 ≤ p.length := List.length_pos.mpr hp
  unfold findPatternOccurrences specOccurrences
  rw [if_neg (by omega)]
  refine kmpLoop_correct t p hm (2 * t.length + 1) 0 0 []
    (by omega) (by omega) (by omega)
    (by rw [List.take_zero, List.take_zero])
    (fun q hq => absurd hq (by omega)) ?_ (by omega)
  rw [show 0 + 1 - p.length = 0 from by omega]
  rfl

-- ===================== Claim C2 =====================

/-- Claim C2: for every non-empty pattern, `findPatternOccurrences` returns
exactly the increasing list of all start offsets where the substring of the
text of the pattern's length equals the pattern (overlaps included); the
empty pattern yields no occurrences; and `containsPattern` is true exactly
when the occurrence list is non-empty. -/
theorem claim_C2_kmp_correct (text pattern : List Char) :
    (pattern ≠ [] →
      findPatternOccurrences text pattern = specOccurrences text pattern) ∧
    findPatternOccurrences text [] = [] ∧
    (containsPattern text pattern = true ↔
      findPatternOccurrences text pattern ≠ []) := by
  refine ⟨fun hp => findPatternOccurrences_correct text pattern hp, rfl, ?_⟩
  unfold containsPattern
  simp [List.isEmpty_iff]

/-- Witness for claim C2 at the spec's own example: pattern "aa" in text
"aaaa" yields the overlapping offsets 0, 1, 2. -/
theorem claim_C2_kmp_correct_witness :
    (['a', 'a'] : List Char) ≠ [] ∧
    findPatternOccurrences ['a', 'a', 'a', 'a'] ['a', 'a'] = [0, 1, 2] ∧
    specOccurrences ['a', 'a', 'a', 'a'] ['a', 'a'] = [0, 1, 2] := by
  refine ⟨by decide, ?_, by decide⟩
  have h := (claim_C2_kmp_correct ['a', 'a', 'a', 'a'] ['a', 'a']).1 (by decide)
  rw [h]
  decide

-- ============== trust graph and reputation map (lines 140-165, 288-291) ==============

/-- Lookup in a `std::map` modelled as an association list with unique keys
(the map's internal ordering is irrelevant to every verified property). -/
def lookupA {β : Type} : List (Str × β) → Str → Option β
  | [], _ => none
  | (k, v) :: rest, u => if k = u then some v else lookupA rest u

/-- The `Graph::adj` state: user ↦ adjacency list. -/
abbrev GraphM := List (Str × List Str)

/-- `adj[u].push_back(v)`: `operator[]` default-inserts an empty vector for
an absent key, then `v` is appended. -/
def pushAdj : GraphM → Str → Str → GraphM
  | [], u, v => [(u, [v])]
  | (k, l) :: rest, u, v =>
    if k = u then (k, l ++ [v]) :: rest else (k, l) :: pushAdj rest u v

/-- `Graph::addEdge` (lines 152-155): symmetric insertion. -/
def addEdge (g : GraphM) (u v : Str) : GraphM :=
  pushAdj (pushAdj g u v) v u

/-- The effect of bare `adj[u]` on the map: ensure `u` has an entry,
default-constructed (empty) when absent. -/
def ensureEntry : GraphM → Str → GraphM
  | [], u => [(u, [])]
  | (k, l) :: rest, u =>
    if k = u then (k, l) :: rest else (k, l) :: ensureEntry rest u

/-- Value returned by `Graph::degree` (lines 162-164): the length of `u`'s
adjacency list, `0` when `u` has no entry. -/
def degreeVal (g : GraphM) (u : Str) : Nat :=
  ((lookupA g u).getD []).length

/-- `Graph::degree` as a state transformer: `adj[u].size()` both returns the
length and (via `operator[]`) inserts an empty entry for an absent `u`. -/
def degreeCall (g : GraphM) (u : Str) : Nat × GraphM :=
  (((lookupA (ensureEntry g u) u).getD []).length, ensureEntry g u)

/-- The social graph of `main` (lines 296-298), built from an edge list. -/
def buildGraph (es : List (Str × Str)) : GraphM :=
  es.foldl (fun g e => addEdge g e.1 e.2) []

-- ============== scoring policy (lines 167-202, 302-371) ==============

/-- `::tolower` as applied by `std::transform` (ASCII upper case to lower
case, identity elsewhere). -/
def tolowerChar (c : Char) : Char :=
  if 65 ≤ c.toNat ∧ c.toNat ≤ 90 then Char.ofNat (c.toNat + 32) else c

/-- Lower-casing of a whole string (lines 330, 340). -/
def toLowerStr (s : Str) : Str := s.map tolowerChar

/-- Whitespace as recognised by `std::stringstream` extraction ("C" locale
`isspace`): space, tab, newline, vertical tab, form feed, carriage return. -/
def isWSChar (c : Char) : Bool :=
  c == ' ' || c == '\t' || c == '\n' || c == Char.ofNat 11 ||
    c == Char.ofNat 12 || c == '\r'

/-- Tokenisation performed by `while (ss >> word)` (lines 327-328): maximal
runs of non-whitespace characters. -/
def tokensOf (content : Str) : List Str :=
  (content.splitOnP isWSChar).filter (fun w => w ≠ [])

/-- `FlaggedPost` (lines 172-179). -/
structure FlaggedPost where
  username : Str
  content : Str
  severity : Nat
  priority : Str
  isBot : Bool
  reputation : Int
deriving DecidableEq, Repr

/-- `getPriority` (lines 185-189). -/
def getPriority (score : Int) : Str :=
  if score ≥ 6 then ['H', 'I', 'G', 'H']
  else if score ≥ 3 then ['M', 'E', 'D', 'I', 'U', 'M']
  else ['L', 'O', 'W']

/-- Severity computation of the post-analysis loop in `main`
(lines 320-363): +1 per banned-word token, +2 per banned phrase contained
in the lower-cased content, +2 for an isolated (degree-0) author, +1 for
reputation below 5 (absent authors default to reputation 0). -/
def severityOf (bannedWords : AVLNode) (bannedPhrases : List Str)
    (socialGraph : GraphM) (userReputation : List (Str × Int))
    (user content : Str) : Nat :=
  let sev1 := (tokensOf content).foldl
    (fun sev word => if searchAVL bannedWords (toLowerStr word) then sev + 1 else sev) 0
  let lowerContent := toLowerStr content
  let sev2 := bannedPhrases.foldl
    (fun sev phrase => if containsPattern lowerContent phrase then sev + 2 else sev) sev1
  let rep : Int := (lookupA userReputation user).getD 0
  let isBot : Bool := degreeVal socialGraph user == 0
  let sev3 := if isBot then sev2 + 2 else sev2
  if rep < 5 then sev3 + 1 else sev3

/-- The flagging step of `main` (lines 349-370): a post is turned into a
review-queue entry exactly when its severity is positive. -/
def processPost (bannedWords : AVLNode) (bannedPhrases : List Str)
    (socialGraph : GraphM) (userReputation : List (Str × Int))
    (user content : Str) : Option (Nat × FlaggedPost) :=
  let severity := severityOf bannedWords bannedPhrases socialGraph userReputation user content
  let rep : Int := (lookupA userReputation user).getD 0
  let isBot : Bool := degreeVal socialGraph user == 0
  if severity > 0 then
    some (severity,
      ⟨user, content, severity, getPriority (severity : Int), isBot, rep⟩)
  else none

/-- Specification predicate for claim C1: a phrase occurs somewhere in the
text; following the spec's matcher contract, the empty phrase never occurs. -/
def OccursIn (s pat : Str) : Prop :=
  pat ≠ [] ∧ ∃ q, occursAt s pat q

example : degreeVal (buildGraph [(['a'], ['b']), (['b'], ['c'])]) ['b'] = 2 := by decide
example : degreeVal (buildGraph [(['a'], ['b'])]) ['z'] = 0 := by decide
example : tokensOf ['h', 'i', ' ', ' ', 'y', 'o'] = [['h', 'i'], ['y', 'o']] := by decide
example : toLowerStr ['A', 'b', 'Z', '!'] = ['a', 'b', 'z', '!'] := by decide
example : getPriority 6 = ['H', 'I', 'G', 'H'] := by decide
example : getPriority 5 = ['M', 'E', 'D', 'I', 'U', 'M'] := by decide
example : getPriority 2 = ['L', 'O', 'W'] := by decide

-- ============== graph lemmas, claims C8 and C10 ==============

theorem degreeVal_pushAdj (g : GraphM) (a v w : Str) :
    degreeVal (pushAdj g a v) w =
      if w = a then degreeVal g w + 1 else degreeVal g w := by
  induction g with
  | nil =>
    by_cases h : w = a
    · subst h
      simp [pushAdj, degreeVal, lookupA]
    · simp [pushAdj, degreeVal, lookupA, h, Ne.symm h]
  | cons kv rest ih =>
    obtain ⟨k, l⟩ := kv
    by_cases hka : k = a
    · subst hka
      by_cases hwk : w = k
      · subst hwk
        simp [pushAdj, degreeVal, lookupA]
      · simp [pushAdj, degreeVal, lookupA, Ne.symm hwk, hwk]
    · by_cases hwk : w = k
      · subst hwk
        simp [pushAdj, degreeVal, lookupA, hka, Ne.symm hka]
      · simp [pushAdj, degreeVal, lookupA, hka, Ne.symm hwk, hwk] at ih ⊢
        exact ih

theorem degreeVal_addEdge (g : GraphM) (u v w : Str) :
    degreeVal (addEdge g u v) w =
      (if w = v then degreeVal (pushAdj g u v) w + 1 else degreeVal (pushAdj g u v) w) := by
  unfold addEdge
  rw [degreeVal_pushAdj]

/-- Claim C8 is refuted by a self-loop: `addEdge("x","x")` raises the degree
of `x` by 2, not 1. -/
theorem claim_C8_counterexample :
    ¬(degreeVal (addEdge [] ['x'] ['x']) ['x'] =
        degreeVal ([] : GraphM) ['x'] + 1) := by
  decide

/-- Claim C8 (amended): for *distinct* users `a ≠ b`, `addEdge(a,b)` raises
the degree of each endpoint by exactly 1 and changes no other degree (a
self-loop `addEdge(a,a)` raises `degree(a)` by 2); a user appearing in no
edge has degree 0. -/
theorem claim_C8_addEdge_degree :
    (∀ (g : GraphM) (u v : Str), u ≠ v →
      degreeVal (addEdge g u v) u = degreeVal g u + 1 ∧
      degreeVal (addEdge g u v) v = degreeVal g v + 1 ∧
      ∀ w, w ≠ u → w ≠ v → degreeVal (addEdge g u v) w = degreeVal g w) ∧
    (∀ (es : List (Str × Str)) (x : Str),
      (∀ e ∈ es, e.1 ≠ x ∧ e.2 ≠ x) → degreeVal (buildGraph es) x = 0) := by
  constructor
  · intro g u v huv
    refine ⟨?_, ?_, ?_⟩
    · rw [degreeVal_addEdge, if_neg huv, degreeVal_pushAdj, if_pos rfl]
    · rw [degreeVal_addEdge, if_pos rfl, degreeVal_pushAdj, if_neg (Ne.symm huv)]
    · intro w hwu hwv
      rw [degreeVal_addEdge, if_neg hwv, degreeVal_pushAdj, if_neg hwu]
  · intro es x hes
    have main : ∀ (es : List (Str × Str)) (g : GraphM),
        (∀ e ∈ es, e.1 ≠ x ∧ e.2 ≠ x) →
        degreeVal (es.foldl (fun g e => addEdge g e.1 e.2) g) x = degreeVal g x := by
      intro es
      induction es with
      | nil => intro g _; rfl
      | cons e rest ih =>
        intro g he
        have h1 := he e (List.mem_cons_self _ _)
        rw [List.foldl_cons, ih _ (fun e' he' => he e' (List.mem_cons_of_mem _ he')),
          degreeVal_addEdge, if_neg (Ne.symm h1.2), degreeVal_pushAdj,
          if_neg (Ne.symm h1.1)]
    rw [buildGraph, main es [] hes]
    rfl

/-- Witness for the amended claim C8, at a concrete pair of distinct users
and a concrete edge list not mentioning the queried user. -/
theorem claim_C8_addEdge_degree_witness :
    (['a'] : Str) ≠ ['b'] ∧
    degreeVal (addEdge [] ['a'] ['b']) ['a'] = 1 ∧
    degreeVal (buildGraph [(['a'], ['b'])]) ['z'] = 0 := by
  refine ⟨by decide, ?_, ?_⟩
  · have h := (claim_C8_addEdge_degree.1 [] ['a'] ['b'] (by decide)).1
    rw [h]
    rfl
  · exact claim_C8_addEdge_degree.2 [(['a'], ['b'])] ['z'] (by decide)

theorem lookupA_ensureEntry_self (g : GraphM) (u : Str) :
    lookupA (ensureEntry g u) u = some ((lookupA g u).getD []) := by
  induction g with
  | nil => simp [ensureEntry, lookupA]
  | cons kv rest ih =>
    obtain ⟨k, l⟩ := kv
    by_cases hk : k = u
    · subst hk
      simp [ensureEntry, lookupA]
    · simp [ensureEntry, lookupA, hk, ih]

theorem lookupA_ensureEntry_other (g : GraphM) (u w : Str) (h : w ≠ u) :
    lookupA (ensureEntry g u) w = lookupA g w := by
  induction g with
  | nil => simp [ensureEntry, lookupA, Ne.symm h]
  | cons kv rest ih =>
    obtain ⟨k, l⟩ := kv
    by_cases hk : k = u
    · subst hk
      simp [ensureEntry, lookupA]
    · by_cases hw : k = w
      · subst hw
        simp [ensureEntry, lookupA, hk]
      · simp [ensureEntry, lookupA, hk, hw, ih]

theorem degreeCall_fst (g : GraphM) (u : Str) :
    (degreeCall g u).1 = degreeVal g u := by
  unfold degreeCall degreeVal
  rw [lookupA_ensureEntry_self]
  rfl

/-- Claim C10: `degree(u)` returns the current adjacency-list length (0 when
`u` is absent); observed degrees are unchanged by the call; but querying an
absent `u` default-inserts an empty entry, so the map state itself changes. -/
theorem claim_C10_degree_frame (g : GraphM) (u : Str) :
    (∀ l, lookupA g u = some l → (degreeCall g u).1 = l.length) ∧
    (lookupA g u = none → (degreeCall g u).1 = 0) ∧
    (∀ w, (degreeCall (degreeCall g u).2 w).1 = (degreeCall g w).1) ∧
    (lookupA g u = none →
      (degreeCall g u).2 ≠ g ∧ lookupA (degreeCall g u).2 u = some []) := by
  refine ⟨?_, ?_, ?_, ?_⟩
  · intro l hl
    rw [degreeCall_fst]
    unfold degreeVal
    rw [hl]
    rfl
  · intro hl
    rw [degreeCall_fst]
    unfold degreeVal
    rw [hl]
    rfl
  · intro w
    rw [degreeCall_fst, degreeCall_fst]
    show degreeVal (ensureEntry g u) w = degreeVal g w
    by_cases hw : w = u
    · subst hw
      unfold degreeVal
      rw [lookupA_ensureEntry_self]
      cases lookupA g w <;> rfl
    · unfold degreeVal
      rw [lookupA_ensureEntry_other g u w hw]
  · intro hl
    have hsome : lookupA (degreeCall g u).2 u = some [] := by
      show lookupA (ensureEntry g u) u = some []
      rw [lookupA_ensureEntry_self, hl]
      rfl
    refine ⟨?_, hsome⟩
    intro heq
    rw [heq, hl] at hsome
    exact Option.noConfusion hsome

/-- Witness for claim C10 at a concrete graph state: querying an absent user
returns 0, leaves all observed degrees intact, and inserts an empty entry. -/
theorem claim_C10_degree_frame_witness :
    lookupA ([] : GraphM) ['a'] = none ∧
    (degreeCall ([] : GraphM) ['a']).1 = 0 ∧
    (degreeCall ([] : GraphM) ['a']).2 ≠ [] ∧
    lookupA (degreeCall ([] : GraphM) ['a']).2 ['a'] = some [] := by
  have h := claim_C10_degree_frame [] ['a']
  exact ⟨rfl, h.2.1 rfl, (h.2.2.2 rfl).1, (h.2.2.2 rfl).2⟩

-- ============== claims C1 and C6 ==============

theorem foldl_count_one {α : Type} (l : List α) (f : α → Bool) (init : Nat) :
    l.foldl (fun sev a => if f a then sev + 1 else sev) init = init + l.countP f := by
  induction l generalizing init with
  | nil => simp
  | cons a rest ih =>
    rw [List.foldl_cons, List.countP_cons]
    by_cases h : f a = true
    · rw [if_pos h, ih]
      simp [h]
      omega
    · rw [if_neg h, ih]
      simp [h]

theorem foldl_count_two {α : Type} (l : List α) (f : α → Bool) (init : Nat) :
    l.foldl (fun sev a => if f a then sev + 2 else sev) init = init + 2 * l.countP f := by
  induction l generalizing init with
  | nil => simp
  | cons a rest ih =>
    rw [List.foldl_cons, List.countP_cons]
    by_cases h : f a = true
    · rw [if_pos h, ih]
      simp [h]
      omega
    · rw [if_neg h, ih]
      simp [h]

theorem specOccurrences_ne_nil_iff (s pat : Str) (hp : pat ≠ []) :
    specOccurrences s pat ≠ [] ↔ ∃ q, occursAt s pat q := by
  constructor
  · intro h
    obtain ⟨x, hx⟩ := List.exists_mem_of_ne_nil _ h
    rw [specOccurrences, List.mem_filter] at hx
    exact ⟨x, of_decide_eq_true hx.2⟩
  · rintro ⟨q, hq⟩ hnil
    have hqmem : q ∈ specOccurrences s pat := by
      rw [specOccurrences, List.mem_filter]
      refine ⟨?_, decide_eq_true hq⟩
      rw [List.mem_range]
      have := occursAt_length (List.length_pos.mpr hp) hq
      omega
    rw [hnil] at hqmem
    exact List.not_mem_nil q hqmem

theorem containsPattern_iff (s pat : Str) :
    containsPattern s pat = true ↔ OccursIn s pat := by
  by_cases hp : pat = []
  · subst hp
    unfold containsPattern OccursIn
    simp [findPatternOccurrences]
  · unfold OccursIn
    rw [← specOccurrences_ne_nil_iff s pat hp]
    unfold containsPattern
    rw [findPatternOccurrences_correct s pat hp]
    simp [List.isEmpty_iff, hp]

instance OccursIn.instDecidable (s pat : Str) : Decidable (OccursIn s pat) :=
  decidable_of_iff (containsPattern s pat = true) (containsPattern_iff s pat)

theorem containsPattern_eq_decide (s pat : Str) :
    containsPattern s pat = decide (OccursIn s pat) := by
  by_cases h : OccursIn s pat
  · rw [(containsPattern_iff s pat).mpr h, decide_eq_true h]
  · rw [decide_eq_false h]
    rcases Bool.eq_false_or_eq_true (containsPattern s pat) with hb | hb
    · exact absurd ((containsPattern_iff s pat).mp hb) h
    · exact hb

theorem searchAVL_buildDict_eq_decide (ws : List Str) (x : Str) :
    searchAVL (buildDict ws) x = decide (x ∈ ws) := by
  by_cases h : x ∈ ws
  · rw [(searchAVL_buildDict_iff ws x).mpr h, decide_eq_true h]
  · rw [decide_eq_false h]
    rcases Bool.eq_false_or_eq_true (searchAVL (buildDict ws) x) with hb | hb
    · exact absurd ((searchAVL_buildDict_iff ws x).mp hb) h
    · exact hb

/-- Claim C1: for every post and every fixed dictionary (built from a word
list), banned-phrase list, trust graph and reputation table, the computed
severity is the sum of: +1 per whitespace token whose lower-cased form is in
the dictionary, +2 per phrase of the list occurring in the lower-cased
content (the empty phrase never occurs, per the matcher contract), +2 if
the author's degree is 0, and +1 if the author's reputation (default 0) is
below 5. -/
theorem claim_C1_severity_decomposition (ws bannedPhrases : List Str)
    (socialGraph : GraphM) (userReputation : List (Str × Int))
    (user content : Str) :
    severityOf (buildDict ws) bannedPhrases socialGraph userReputation user content =
      (tokensOf content).countP (fun w => decide (toLowerStr w ∈ ws)) +
      2 * bannedPhrases.countP (fun ph => decide (OccursIn (toLowerStr content) ph)) +
      (if degreeVal socialGraph user = 0 then 2 else 0) +
      (if (lookupA userReputation user).getD 0 < 5 then 1 else 0) := by
  unfold severityOf
  dsimp only
  rw [foldl_count_one, foldl_count_two]
  have e1 : (tokensOf content).countP
      (fun w => searchAVL (buildDict ws) (toLowerStr w)) =
      (tokensOf content).countP (fun w => decide (toLowerStr w ∈ ws)) :=
    List.countP_congr (fun w _ => by rw [searchAVL_buildDict_eq_decide ws (toLowerStr w)])
  have e2 : bannedPhrases.countP
      (fun ph => containsPattern (toLowerStr content) ph) =
      bannedPhrases.countP (fun ph => decide (OccursIn (toLowerStr content) ph)) :=
    List.countP_congr (fun ph _ => by rw [containsPattern_eq_decide (toLowerStr content) ph])
  rw [e1, e2]
  simp only [beq_iff_eq]
  split_ifs <;> omega

/-- Claim C6: priority tiers are HIGH for severity ≥ 6, MEDIUM for severity
in [3,5], LOW for severity in [1,2]; a post of severity 0 is not flagged
(no review-queue entry is produced). -/
theorem claim_C6_priority_tiers :
    (∀ s : Int,
      (6 ≤ s → getPriority s = ['H', 'I', 'G', 'H']) ∧
      (3 ≤ s ∧ s ≤ 5 → getPriority s = ['M', 'E', 'D', 'I', 'U', 'M']) ∧
      (1 ≤ s ∧ s ≤ 2 → getPriority s = ['L', 'O', 'W'])) ∧
    (∀ (bw : AVLNode) (ph : List Str) (g : GraphM) (reps : List (Str × Int))
      (user content : Str),
      severityOf bw ph g reps user content = 0 →
      processPost bw ph g reps user content = none) := by
  constructor
  · intro s
    refine ⟨?_, ?_, ?_⟩ <;> intro h <;> unfold getPriority
    · rw [if_pos (by omega)]
    · rw [if_neg (by omega), if_pos (by omega)]
    · rw [if_neg (by omega), if_neg (by omega)]
  · intro bw ph g reps user content h
    unfold processPost
    dsimp only
    rw [h]
    rfl

/-- Witness for claim C6 at concrete severities and a concrete clean post
(known user with reputation 10, one connection, innocuous content). -/
theorem claim_C6_priority_tiers_witness :
    (6 : Int) ≤ 7 ∧ getPriority 7 = ['H', 'I', 'G', 'H'] ∧
    getPriority 4 = ['M', 'E', 'D', 'I', 'U', 'M'] ∧
    getPriority 2 = ['L', 'O', 'W'] ∧
    processPost (buildDict [['s', 'c', 'a', 'm']]) [['f', 'r', 'e', 'e']]
      (buildGraph [(['u'], ['v'])]) [(['u'], (10 : Int))] ['u'] ['o', 'k'] = none := by
  refine ⟨by decide, (claim_C6_priority_tiers.1 7).1 (by decide),
    (claim_C6_priority_tiers.1 4).2.1 (by decide),
    (claim_C6_priority_tiers.1 2).2.2 (by decide),
    claim_C6_priority_tiers.2 _ _ _ _ _ _ (by decide)⟩

-- ============== claim C7: the review ordering queue ==============

/-- Modelled from the spec: the review queue of `main`.  The source declares
`priority_queue<pair<int, FlaggedPost>>` (line 312), but that instantiation
is ill-formed C++ — `std::less<pair<int, FlaggedPost>>` needs an
`operator<` on `FlaggedPost`, which the source never defines, so the
program does not compile (the `push` on line 368 triggers the error).  The
spec's contract (§4.5) for the intended queue is `push(severity, post)`,
`pop() → post with the currently-maximum severity`, tie-break unspecified;
`popMax` removes the earliest entry of maximum severity. -/
def popMax :
    List (Nat × FlaggedPost) →
      Option ((Nat × FlaggedPost) × List (Nat × FlaggedPost))
  | [] => none
  | e :: rest =>
    match popMax rest with
    | none => some (e, [])
    | some (m, rest') =>
      if m.1 ≤ e.1 then some (e, rest) else some (m, e :: rest')

/-- Modelled from the spec: repeatedly popping the review queue until it is
empty (lines 375-379).  The fuel equals the queue length, which suffices. -/
def drainAux : Nat → List (Nat × FlaggedPost) → List (Nat × FlaggedPost)
  | 0, _ => []
  | fuel + 1, q =>
    match popMax q with
    | none => []
    | some (e, rest) => e :: drainAux fuel rest

/-- Draining the whole review queue. -/
def drainQueue (q : List (Nat × FlaggedPost)) : List (Nat × FlaggedPost) :=
  drainAux q.length q

/-- A concrete post record used by the queue witness. -/
def samplePost (sev : Nat) : FlaggedPost :=
  ⟨['u'], ['c'], sev, ['L', 'O', 'W'], false, 0⟩

theorem popMax_none_iff (q : List (Nat × FlaggedPost)) :
    popMax q = none ↔ q = [] := by
  cases q with
  | nil => simp [popMax]
  | cons e rest =>
    simp only [popMax]
    cases popMax rest with
    | none => simp
    | some m =>
      obtain ⟨mm, rest'⟩ := m
      by_cases h : mm.1 ≤ e.1 <;> simp [h]

theorem popMax_spec (q : List (Nat × FlaggedPost)) :
    ∀ e rest, popMax q = some (e, rest) →
      (∀ x ∈ q, x.1 ≤ e.1) ∧ (e :: rest).Perm q := by
  induction q with
  | nil => intro e rest h; simp [popMax] at h
  | cons a q' ih =>
    intro e rest h
    simp only [popMax] at h
    rcases hq : popMax q' with _ | er
    · rw [hq] at h
      have hq' : q' = [] := (popMax_none_iff q').mp hq
      subst hq'
      simp only [Option.some.injEq, Prod.mk.injEq] at h
      obtain ⟨rfl, rfl⟩ := h
      exact ⟨by simp, by simp⟩
    · obtain ⟨mm, rest'⟩ := er
      rw [hq] at h
      dsimp only at h
      obtain ⟨hmax, hperm⟩ := ih mm rest' hq
      by_cases hc : mm.1 ≤ a.1
      · rw [if_pos hc] at h
        simp only [Option.some.injEq, Prod.mk.injEq] at h
        obtain ⟨rfl, rfl⟩ := h
        refine ⟨?_, List.Perm.refl _⟩
        intro x hx
        rcases List.mem_cons.mp hx with rfl | hx'
        · exact le_refl _
        · exact le_trans (hmax x hx') hc
      · rw [if_neg hc] at h
        simp only [Option.some.injEq, Prod.mk.injEq] at h
        obtain ⟨rfl, rfl⟩ := h
        constructor
        · intro x hx
          rcases List.mem_cons.mp hx with rfl | hx'
          · exact le_of_lt (lt_of_not_le hc)
          · exact hmax x hx'
        · exact (List.Perm.swap a _ rest').trans (hperm.cons a)

theorem drainAux_spec (fuel : Nat) :
    ∀ q : List (Nat × FlaggedPost), q.length ≤ fuel →
      (drainAux fuel q).Perm q ∧
      List.Pairwise (fun a b => b.1 ≤ a.1) (drainAux fuel q) := by
  induction fuel with
  | zero =>
    intro q hq
    have hq' : q = [] := List.length_eq_zero.mp (by omega)
    subst hq'
    exact ⟨List.Perm.refl _, List.Pairwise.nil⟩
  | succ fuel ih =>
    intro q hq
    simp only [drainAux]
    rcases hp : popMax q with _ | er
    · have hq' : q = [] := (popMax_none_iff q).mp hp
      subst hq'
      exact ⟨List.Perm.refl _, List.Pairwise.nil⟩
    · obtain ⟨e, rest⟩ := er
      obtain ⟨hmax, hperm⟩ := popMax_spec q e rest hp
      have hlen : rest.length + 1 = q.length := by
        have h := hperm.length_eq
        simpa using h
      obtain ⟨ihp, ihs⟩ := ih rest (by omega)
      constructor
      · exact (ihp.cons e).trans hperm
      · refine List.pairwise_cons.mpr ⟨?_, ihs⟩
        intro b hb
        have hbq : b ∈ q := hperm.mem_iff.mp (List.mem_cons_of_mem _ (ihp.mem_iff.mp hb))
        exact hmax b hbq

/-- Claim C7, proved of the spec-modelled queue (the source's own queue
declaration is ill-formed C++, see `popMax`): draining yields the entries
in non-increasing severity order — each pop returns an entry of maximum
severity among those present — and the drain is a permutation of what was
pushed, so a severity-3 entry always precedes severity-1 and severity-2
entries. -/
theorem claim_C7_queue_drain_order (entries : List (Nat × FlaggedPost)) :
    (drainQueue entries).Perm entries ∧
    List.Pairwise (fun a b => b.1 ≤ a.1) (drainQueue entries) ∧
    (∀ e rest, popMax entries = some (e, rest) → ∀ x ∈ entries, x.1 ≤ e.1) := by
  obtain ⟨h1, h2⟩ := drainAux_spec entries.length entries (le_refl _)
  exact ⟨h1, h2, fun e rest h x hx => (popMax_spec entries e rest h).1 x hx⟩

/-- Witness for claim C7 at the spec's scenario severities (3, 2, 1):
popping returns the severity-3 entry first, and severity 2 is bounded by it. -/
theorem claim_C7_queue_drain_order_witness :
    popMax [(2, samplePost 2), (3, samplePost 3), (1, samplePost 1)] =
      some ((3, samplePost 3), [(2, samplePost 2), (1, samplePost 1)]) ∧
    (2, samplePost 2).1 ≤ 3 := by
  refine ⟨by decide, ?_⟩
  exact (claim_C7_queue_drain_order
      [(2, samplePost 2), (3, samplePost 3), (1, samplePost 1)]).2.2
    (3, samplePost 3) [(2, samplePost 2), (1, samplePost 1)] (by decide)
    (2, samplePost 2) (by decide)
